import Mathlib

/-!
Shallow embedding of the trading-platform core (position sizer, financial
primitives, trade/portfolio aggregation) over ℚ, together with theorems
settling the frozen claims about it.

Numeric fields of the source are JS numbers; arithmetic is embedded over ℚ.
-/

namespace Trading

/-- The source's display rounding `parseFloat(x.toFixed(2))`: round to two
decimal places, ties away from zero. -/
def round2 (x : ℚ) : ℚ :=
  if x < 0 then -((Int.floor (-x * 100 + 1 / 2) : ℚ) / 100)
  else (Int.floor (x * 100 + 1 / 2) : ℚ) / 100

/-- JS `a || b` on an optionally present numeric field: a missing value and 0
are falsy and fall through to the alternative. -/
def jsOrQ (x : Option ℚ) (y : ℚ) : ℚ :=
  match x with
  | none => y
  | some v => if v = 0 then y else v

/-- The price selection of the portfolio card
(`snapshot?.ticker?.day?.c || snapshot?.ticker?.lastTrade?.p || item.currentPrice`):
live day close, else live last-trade price, else the stored price. -/
def selectPrice (dayClose lastTrade : Option ℚ) (stored : ℚ) : ℚ :=
  jsOrQ dayClose (jsOrQ lastTrade stored)

/-- The fields of the settings record used by the sizer (the settings schema
has no flat-fee column). -/
structure Settings where
  accountSize : ℚ
  riskPercentage : ℚ
deriving DecidableEq

/-- The fields of a watchlist item used by the sizer. -/
structure WatchlistItem where
  ticker : String
  entryTarget : ℚ
  stopLoss : ℚ
  takeProfit : ℚ
deriving DecidableEq

/-- The result object of `calcRisk`. -/
structure RiskCalc where
  shares : ℤ
  riskAmount : ℚ
  totalCost : ℚ
  potentialProfit : ℚ
  rr : ℚ
deriving DecidableEq

/-- The position sizer `calcRisk` of the watchlist page: `null` when
`riskPerShare ≤ 0`, otherwise floor-sized shares from the risk budget with a
hardcoded 6.95 flat fee. -/
def calcRisk (settings : Settings) (item : WatchlistItem) : Option RiskCalc :=
  let riskPerShare := item.entryTarget - item.stopLoss
  if riskPerShare ≤ 0 then none
  else
    let riskAmount := settings.accountSize * (settings.riskPercentage / 100)
    let shares := Int.floor (riskAmount / riskPerShare)
    some { shares := shares
           riskAmount := riskAmount
           totalCost := (shares : ℚ) * item.entryTarget + 6.95
           potentialProfit := (shares : ℚ) * (item.takeProfit - item.entryTarget) - 6.95
           rr := (item.takeProfit - item.entryTarget) / riskPerShare }

/-- Modelled from the spec: the sizer contract of spec section 4.2 with a
configurable flat fee, as the spec's `RiskSettings.flatFeePerTrade` field would
supply (the code's settings schema has no such field; `calcRisk` hardcodes
6.95). Used only to compare the code against the claim's wording. -/
def sizeSpec (entryTarget stopLoss takeProfit accountSize riskPercentage flatFee : ℚ) :
    Option RiskCalc :=
  let riskPerShare := entryTarget - stopLoss
  if riskPerShare ≤ 0 then none
  else
    let riskAmount := accountSize * (riskPercentage / 100)
    let shares := Int.floor (riskAmount / riskPerShare)
    some { shares := shares
           riskAmount := riskAmount
           totalCost := (shares : ℚ) * entryTarget + flatFee
           potentialProfit := (shares : ℚ) * (takeProfit - entryTarget) - flatFee
           rr := (takeProfit - entryTarget) / riskPerShare }

/-- The fields of a portfolio item (the `sector` column is nullable with
default "Other"). -/
structure PortfolioItem where
  ticker : String
  shares : ℚ
  avgCost : ℚ
  currentPrice : ℚ
  sector : Option String
deriving DecidableEq

/-- The derived values of `PortfolioItemCard`: market value, cost basis,
unrealized P and L, and percentage return. -/
structure CardView where
  value : ℚ
  cost : ℚ
  pnl : ℚ
  ret : ℚ
deriving DecidableEq

/-- The per-position arithmetic of `PortfolioItemCard`, with `currentPrice`
the already-selected (live or stored) price. -/
def portfolioCard (item : PortfolioItem) (currentPrice : ℚ) : CardView :=
  let value := item.shares * currentPrice
  let cost := item.shares * item.avgCost
  let pnl := value - cost
  { value := value
    cost := cost
    pnl := pnl
    ret := if cost > 0 then pnl / cost * 100 else 0 }

/-- One entry of the P and L ranking chart. -/
structure PnlEntry where
  ticker : String
  pnl : ℚ
  returnPct : ℚ
deriving DecidableEq

/-- The per-item computation inside `holdingsPnlData`: note the percentage
return is guarded by `avgCost > 0`, not by a positive cost basis, and both
outputs are rounded to two decimals. -/
def holdingsPnlEntry (item : PortfolioItem) : PnlEntry :=
  let pnl := (item.currentPrice - item.avgCost) * item.shares
  let ret :=
    if item.avgCost > 0 then (item.currentPrice - item.avgCost) / item.avgCost * 100 else 0
  { ticker := item.ticker, pnl := round2 pnl, returnPct := round2 ret }

/-- Descending-by-pnl comparison used by the P and L ranking sort. -/
def pnlGE (a b : PnlEntry) : Prop := b.pnl ≤ a.pnl

instance : DecidableRel pnlGE := fun a b => inferInstanceAs (Decidable (b.pnl ≤ a.pnl))

/-- `holdingsPnlData`: per-item entries sorted descending by pnl. -/
def holdingsPnlData (portfolio : List PortfolioItem) : List PnlEntry :=
  List.insertionSort pnlGE (portfolio.map holdingsPnlEntry)

/-- One step of the JS group-by-key accumulation over an entry list: merge the
contribution into the first entry whose key matches (as `Array.prototype.find`
locates the bucket the source then mutates), else push a new entry at the end. -/
def upsert {V : Type} (k : String) (f : V → V) (v0 : V) : List (String × V) → List (String × V)
  | [] => [(k, v0)]
  | e :: rest => if e.1 = k then (e.1, f e.2) :: rest else e :: upsert k f v0 rest

/-- The JS `reduce`-based group-by shared by the rollups: fold the records,
adding each record's contribution into its key's entry, creating the entry at
the key's first occurrence and preserving first-occurrence order of keys. -/
def groupFold {A V : Type} [AddCommMonoid V] (key : A → String) (contrib : A → V)
    (xs : List A) : List (String × V) :=
  xs.foldl (fun acc x => upsert (key x) (fun v => v + contrib x) (contrib x) acc) []

/-- First entry with the given key, if any. -/
def lookupKey {V : Type} (k : String) : List (String × V) → Option V
  | [] => none
  | e :: rest => if e.1 = k then some e.2 else lookupKey k rest

/-- Total contribution of the records carrying a given key. -/
def keyTotal {A V : Type} [AddCommMonoid V] (key : A → String) (contrib : A → V)
    (k : String) (xs : List A) : V :=
  ((xs.filter (fun x => decide (key x = k))).map contrib).sum

/-- A trade record (all numeric columns are not null in the schema). -/
structure Trade where
  type : String
  ticker : String
  shares : ℚ
  price : ℚ
  fees : ℚ
  date : String
deriving DecidableEq

/-- Contribution of one trade to its date bucket, as (buys, sells, fees):
a BUY adds `shares*price` to buys, any other type adds it to sells. -/
def tradeContrib (t : Trade) : ℚ × ℚ × ℚ :=
  (if t.type = "BUY" then t.shares * t.price else 0,
   if t.type = "BUY" then 0 else t.shares * t.price,
   t.fees)

/-- Comparison used by `sortedTrades` (`a.date.localeCompare(b.date)`): order
trades by their date strings. -/
def dateLE (a b : Trade) : Prop := a.date ≤ b.date

instance : DecidableRel dateLE := fun a b => inferInstanceAs (Decidable (a.date ≤ b.date))

instance : IsTotal Trade dateLE := ⟨fun a b => le_total a.date b.date⟩

instance : IsTrans Trade dateLE := ⟨fun _ _ _ h h2 => le_trans h h2⟩

/-- `sortedTrades`: the trade list sorted ascending by date string. -/
def sortTrades (ts : List Trade) : List Trade :=
  List.insertionSort dateLE ts

/-- `tradesByDate`: the by-date rollup, one `(date, (buys, sells, fees))`
bucket per distinct date of the date-sorted trade list. -/
def tradesByDate (ts : List Trade) : List (String × (ℚ × ℚ × ℚ)) :=
  groupFold Trade.date tradeContrib (sortTrades ts)

/-- The running-sum pass of `feesOverTime` over the rollup buckets, carrying
the accumulated `cumFees`. -/
def feesAux (cum : ℚ) : List (String × (ℚ × ℚ × ℚ)) → List (String × ℚ)
  | [] => []
  | b :: bs => (b.1, round2 (cum + b.2.2.2)) :: feesAux (cum + b.2.2.2) bs

/-- `feesOverTime`: cumulative fees per rollup bucket, rounded for display. -/
def feesOverTime (ts : List Trade) : List (String × ℚ) :=
  feesAux 0 (tradesByDate ts)

/-- The sector key of a position (`p.sector || "Other"`): a null or empty
sector falls back to the literal "Other". -/
def sectorKey (p : PortfolioItem) : String :=
  match p.sector with
  | none => "Other"
  | some s => if s = "" then "Other" else s

/-- `sectorMap`: value grouped by sector, in first-occurrence key order. -/
def sectorMap (portfolio : List PortfolioItem) : List (String × ℚ) :=
  groupFold sectorKey (fun p => p.shares * p.currentPrice) portfolio

/-- Descending-by-value comparison used by the sector chart sort. -/
def valGE (a b : String × ℚ) : Prop := b.2 ≤ a.2

instance : DecidableRel valGE := fun a b => inferInstanceAs (Decidable (b.2 ≤ a.2))

instance : IsTotal (String × ℚ) valGE := ⟨fun a b => le_total b.2 a.2⟩

instance : IsTrans (String × ℚ) valGE := ⟨fun _ _ _ h h2 => le_trans h2 h⟩

/-- `sectorChartData`: sector totals sorted descending, then rounded for
display. -/
def sectorChartData (portfolio : List PortfolioItem) : List (String × ℚ) :=
  (List.insertionSort valGE (sectorMap portfolio)).map (fun e => (e.1, round2 e.2))

/-! Helper lemmas about the rounding function. -/

theorem round2_mono {x y : ℚ} (h : x ≤ y) : round2 x ≤ round2 y := by
  unfold round2
  split_ifs with hx hy hy
  · have hf : (⌊-y * 100 + 1 / 2⌋ : ℤ) ≤ ⌊-x * 100 + 1 / 2⌋ :=
      Int.floor_le_floor (by linarith)
    have hc : ((⌊-y * 100 + 1 / 2⌋ : ℤ) : ℚ) ≤ ((⌊-x * 100 + 1 / 2⌋ : ℤ) : ℚ) := by
      exact_mod_cast hf
    linarith
  · have h1 : (0 : ℤ) ≤ ⌊-x * 100 + 1 / 2⌋ := Int.le_floor.mpr (by push_cast; linarith)
    have h2 : (0 : ℤ) ≤ ⌊y * 100 + 1 / 2⌋ := Int.le_floor.mpr (by push_cast; linarith)
    have c1 : (0 : ℚ) ≤ ((⌊-x * 100 + 1 / 2⌋ : ℤ) : ℚ) := by exact_mod_cast h1
    have c2 : (0 : ℚ) ≤ ((⌊y * 100 + 1 / 2⌋ : ℤ) : ℚ) := by exact_mod_cast h2
    linarith
  · linarith
  · have hf : (⌊x * 100 + 1 / 2⌋ : ℤ) ≤ ⌊y * 100 + 1 / 2⌋ :=
      Int.floor_le_floor (by linarith)
    have hc : ((⌊x * 100 + 1 / 2⌋ : ℤ) : ℚ) ≤ ((⌊y * 100 + 1 / 2⌋ : ℤ) : ℚ) := by
      exact_mod_cast hf
    linarith

theorem round2_zero : round2 0 = 0 := by
  rw [round2, if_neg (lt_irrefl 0)]
  have h : (⌊(0 : ℚ) * 100 + 1 / 2⌋ : ℤ) = 0 := by
    rw [Int.floor_eq_iff]
    norm_num
  rw [h]
  norm_num

/-! Helper lemmas about sums and filters. -/

theorem sum_map_ite_filter {A : Type} (P : A → Prop) [DecidablePred P] (f : A → ℚ)
    (l : List A) :
    (l.map (fun x => if P x then f x else 0)).sum
      = ((l.filter (fun x => decide (P x))).map f).sum := by
  induction l with
  | nil => rfl
  | cons a l ih => by_cases h : P a <;> simp [h, ih]

theorem filter_decide_and {A : Type} (P Q : A → Prop) [DecidablePred P] [DecidablePred Q]
    (l : List A) :
    (l.filter (fun x => decide (P x))).filter (fun x => decide (Q x))
      = l.filter (fun x => decide (P x ∧ Q x)) := by
  induction l with
  | nil => rfl
  | cons a l ih => by_cases hP : P a <;> by_cases hQ : Q a <;> simp [hP, hQ, ih]

theorem sum_fst3 (l : List (ℚ × ℚ × ℚ)) : l.sum.1 = (l.map (fun v => v.1)).sum := by
  induction l with
  | nil => rfl
  | cons a l ih => simp [ih]

theorem sum_snd3 (l : List (ℚ × ℚ × ℚ)) : l.sum.2.1 = (l.map (fun v => v.2.1)).sum := by
  induction l with
  | nil => rfl
  | cons a l ih => simp [ih]

theorem sum_thd3 (l : List (ℚ × ℚ × ℚ)) : l.sum.2.2 = (l.map (fun v => v.2.2)).sum := by
  induction l with
  | nil => rfl
  | cons a l ih => simp [ih]

/-! Helper lemmas about `lookupKey` and `upsert`. -/

theorem lookupKey_upsert_self {V : Type} (k : String) (f : V → V) (v0 : V) :
    ∀ l : List (String × V),
      lookupKey k (upsert k f v0 l)
        = some (match lookupKey k l with | some v => f v | none => v0)
  | [] => by simp [upsert, lookupKey]
  | e :: rest => by
    by_cases h : e.1 = k
    · simp [upsert, lookupKey, h]
    · simp only [upsert, if_neg h, lookupKey]
      exact lookupKey_upsert_self k f v0 rest

theorem lookupKey_upsert_ne {V : Type} {k' k : String} (h : k' ≠ k) (f : V → V) (v0 : V) :
    ∀ l : List (String × V), lookupKey k' (upsert k f v0 l) = lookupKey k' l
  | [] => by
    have hkk : ¬k = k' := fun hh => h hh.symm
    simp [upsert, lookupKey, hkk]
  | e :: rest => by
    have hkk : ¬k = k' := fun hh => h hh.symm
    by_cases he : e.1 = k
    · simp [upsert, lookupKey, he, hkk]
    · by_cases he' : e.1 = k'
      · simp [upsert, lookupKey, he, he', h]
      · simp [upsert, lookupKey, he, he', lookupKey_upsert_ne h f v0 rest]

theorem upsert_map_fst {V : Type} (k : String) (f : V → V) (v0 : V) :
    ∀ l : List (String × V),
      (upsert k f v0 l).map Prod.fst
        = if k ∈ l.map Prod.fst then l.map Prod.fst else l.map Prod.fst ++ [k]
  | [] => by simp [upsert]
  | e :: rest => by
    by_cases h : e.1 = k
    · simp [upsert, h]
    · have hne : ¬k = e.1 := fun hh => h hh.symm
      simp only [upsert, if_neg h, List.map_cons, List.mem_cons, hne, false_or]
      rw [upsert_map_fst k f v0 rest]
      by_cases hmem : k ∈ rest.map Prod.fst <;> simp [hmem]

theorem lookupKey_eq_none_iff {V : Type} (k : String) :
    ∀ l : List (String × V), lookupKey k l = none ↔ k ∉ l.map Prod.fst
  | [] => by simp [lookupKey]
  | e :: rest => by
    by_cases h : e.1 = k
    · simp [lookupKey, h]
    · have hne : ¬k = e.1 := fun hh => h hh.symm
      simp [lookupKey, h, hne, lookupKey_eq_none_iff k rest]

theorem lookupKey_of_mem {V : Type} :
    ∀ {l : List (String × V)}, (l.map Prod.fst).Nodup →
      ∀ {e : String × V}, e ∈ l → lookupKey e.1 l = some e.2
  | [], _, _, he => absurd he (List.not_mem_nil _)
  | a :: l, hnd, e, he => by
    rcases List.mem_cons.mp he with rfl | hmem
    · simp [lookupKey]
    · have ha : a.1 ∉ l.map Prod.fst := (List.nodup_cons.mp (by simpa using hnd)).1
      have hne : a.1 ≠ e.1 := fun hh => ha (hh ▸ List.mem_map_of_mem Prod.fst hmem)
      rw [lookupKey, if_neg hne]
      exact lookupKey_of_mem (List.nodup_cons.mp (by simpa using hnd)).2 hmem

/-! Helper lemmas about `groupFold`. -/

theorem keyTotal_cons_pos {A V : Type} [AddCommMonoid V] {key : A → String} {contrib : A → V}
    {k : String} {x : A} (h : key x = k) (xs : List A) :
    keyTotal key contrib k (x :: xs) = contrib x + keyTotal key contrib k xs := by
  simp [keyTotal, List.filter_cons, h]

theorem keyTotal_cons_neg {A V : Type} [AddCommMonoid V] {key : A → String} {contrib : A → V}
    {k : String} {x : A} (h : ¬key x = k) (xs : List A) :
    keyTotal key contrib k (x :: xs) = keyTotal key contrib k xs := by
  simp [keyTotal, List.filter_cons, h]

theorem foldl_upsert_lookup {A V : Type} [AddCommMonoid V] (key : A → String)
    (contrib : A → V) (k : String) :
    ∀ (xs : List A) (acc : List (String × V)),
      lookupKey k
          (xs.foldl (fun acc x => upsert (key x) (fun v => v + contrib x) (contrib x) acc) acc)
        = match lookupKey k acc with
          | some v => some (v + keyTotal key contrib k xs)
          | none =>
            if k ∈ xs.map key then some (keyTotal key contrib k xs) else none
  | [], acc => by
    cases hacc : lookupKey k acc <;> simp [hacc, keyTotal]
  | x :: xs, acc => by
    rw [List.foldl_cons, foldl_upsert_lookup key contrib k xs]
    by_cases hk : key x = k
    · rw [hk, lookupKey_upsert_self]
      cases hacc : lookupKey k acc with
      | some v =>
        simp only [hacc, keyTotal_cons_pos hk, List.map_cons, hk, List.mem_cons, true_or,
          if_true, add_assoc]
      | none =>
        simp [hacc, keyTotal_cons_pos hk, hk]
    · rw [lookupKey_upsert_ne (fun hh => hk hh.symm)]
      have hk2 : ¬k = key x := fun hh => hk hh.symm
      cases hacc : lookupKey k acc with
      | some v => simp [hacc, keyTotal_cons_neg hk]
      | none => simp [hacc, keyTotal_cons_neg hk, hk, hk2]

theorem groupFold_lookup {A V : Type} [AddCommMonoid V] (key : A → String)
    (contrib : A → V) (k : String) (xs : List A) :
    lookupKey k (groupFold key contrib xs)
      = if k ∈ xs.map key then some (keyTotal key contrib k xs) else none := by
  rw [groupFold, foldl_upsert_lookup key contrib k xs]
  rfl

theorem foldl_upsert_keys_nodup {A V : Type} [AddCommMonoid V] (key : A → String)
    (contrib : A → V) :
    ∀ (xs : List A) (acc : List (String × V)), (acc.map Prod.fst).Nodup →
      (((xs.foldl (fun acc x => upsert (key x) (fun v => v + contrib x) (contrib x) acc)
          acc).map Prod.fst)).Nodup
  | [], acc, h => h
  | x :: xs, acc, h => by
    rw [List.foldl_cons]
    refine foldl_upsert_keys_nodup key contrib xs _ ?_
    rw [upsert_map_fst]
    by_cases hmem : key x ∈ acc.map Prod.fst
    · simpa [hmem] using h
    · simp [hmem, List.nodup_append, h]

theorem foldl_upsert_mem_keys {A V : Type} [AddCommMonoid V] (key : A → String)
    (contrib : A → V) (k : String) :
    ∀ (xs : List A) (acc : List (String × V)),
      (k ∈ ((xs.foldl (fun acc x => upsert (key x) (fun v => v + contrib x) (contrib x) acc)
          acc).map Prod.fst))
        ↔ k ∈ acc.map Prod.fst ∨ k ∈ xs.map key
  | [], acc => by simp
  | x :: xs, acc => by
    rw [List.foldl_cons, foldl_upsert_mem_keys key contrib k xs]
    rw [upsert_map_fst]
    by_cases hmem : key x ∈ acc.map Prod.fst
    · simp only [if_pos hmem, List.map_cons, List.mem_cons]
      constructor
      · rintro (ha | hb)
        · exact Or.inl ha
        · exact Or.inr (Or.inr hb)
      · rintro (ha | rfl | hb)
        · exact Or.inl ha
        · exact Or.inl hmem
        · exact Or.inr hb
    · simp only [if_neg hmem, List.map_cons, List.mem_cons, List.mem_append,
        List.mem_singleton, List.not_mem_nil, or_false]
      constructor
      · rintro ((ha | rfl) | hb)
        · exact Or.inl ha
        · exact Or.inr (Or.inl rfl)
        · exact Or.inr (Or.inr hb)
      · rintro (ha | rfl | hb)
        · exact Or.inl (Or.inl ha)
        · exact Or.inl (Or.inr rfl)
        · exact Or.inr hb

theorem groupFold_keys_nodup {A V : Type} [AddCommMonoid V] (key : A → String)
    (contrib : A → V) (xs : List A) :
    ((groupFold key contrib xs).map Prod.fst).Nodup :=
  foldl_upsert_keys_nodup key contrib xs [] List.nodup_nil

theorem groupFold_mem_keys {A V : Type} [AddCommMonoid V] (key : A → String)
    (contrib : A → V) (k : String) (xs : List A) :
    k ∈ (groupFold key contrib xs).map Prod.fst ↔ k ∈ xs.map key := by
  rw [groupFold, foldl_upsert_mem_keys key contrib k xs]
  simp

theorem mem_groupFold_eq {A V : Type} [AddCommMonoid V] {key : A → String}
    {contrib : A → V} {xs : List A} {e : String × V} (he : e ∈ groupFold key contrib xs) :
    e.2 = keyTotal key contrib e.1 xs := by
  have hl := lookupKey_of_mem (groupFold_keys_nodup key contrib xs) he
  rw [groupFold_lookup] at hl
  by_cases hmem : e.1 ∈ xs.map key
  · rw [if_pos hmem] at hl
    exact (Option.some.injEq _ _ ▸ hl).symm
  · rw [if_neg hmem] at hl
    exact absurd hl (by simp)

theorem foldl_upsert_keys_sorted {A V : Type} [AddCommMonoid V] (key : A → String)
    (contrib : A → V) :
    ∀ (xs : List A) (acc : List (String × V)),
      (xs.map key).Sorted (· ≤ ·) →
      ((acc.map Prod.fst).Sorted (· < ·)) →
      (∀ k ∈ acc.map Prod.fst, ∀ x ∈ xs, k ≤ key x) →
      (((xs.foldl (fun acc x => upsert (key x) (fun v => v + contrib x) (contrib x) acc)
          acc).map Prod.fst)).Sorted (· < ·)
  | [], _, _, hacc, _ => hacc
  | x :: xs, acc, hs, hacc, hbound => by
    rw [List.foldl_cons]
    have hcons := hs
    rw [List.map_cons, List.sorted_cons] at hcons
    obtain ⟨hx, hs2⟩ := hcons
    refine foldl_upsert_keys_sorted key contrib xs _ hs2 ?_ ?_
    · rw [upsert_map_fst]
      by_cases hmem : key x ∈ acc.map Prod.fst
      · simpa [hmem] using hacc
      · rw [if_neg hmem, List.Sorted, List.pairwise_append]
        refine ⟨hacc, List.pairwise_singleton _ _, fun b hb c hc => ?_⟩
        simp only [List.mem_singleton] at hc
        subst hc
        have hle : b ≤ key x := hbound b hb x (List.mem_cons_self x xs)
        exact lt_of_le_of_ne hle (fun hb2 => hmem (hb2 ▸ hb))
    · intro k hk y hy
      rw [upsert_map_fst] at hk
      by_cases hmem : key x ∈ acc.map Prod.fst
      · rw [if_pos hmem] at hk
        exact hbound k hk y (List.mem_cons_of_mem x hy)
      · rw [if_neg hmem, List.mem_append, List.mem_singleton] at hk
        rcases hk with hk | rfl
        · exact hbound k hk y (List.mem_cons_of_mem x hy)
        · exact hx (key y) (List.mem_map_of_mem key hy)

theorem groupFold_keys_sorted {A V : Type} [AddCommMonoid V] (key : A → String)
    (contrib : A → V) (xs : List A) (hs : (xs.map key).Sorted (· ≤ ·)) :
    ((groupFold key contrib xs).map Prod.fst).Sorted (· < ·) :=
  foldl_upsert_keys_sorted key contrib xs [] hs (by simp [List.Sorted]) (by simp)

theorem keyTotal_perm {A V : Type} [AddCommMonoid V] (key : A → String) (contrib : A → V)
    (k : String) {xs ys : List A} (h : xs.Perm ys) :
    keyTotal key contrib k xs = keyTotal key contrib k ys :=
  ((h.filter _).map _).sum_eq

/-! Helper lemmas about the sizer. -/

theorem calcRisk_pos_eq (s : Settings) (i : WatchlistItem) (h : i.stopLoss < i.entryTarget) :
    calcRisk s i = some
      { shares := ⌊s.accountSize * (s.riskPercentage / 100) / (i.entryTarget - i.stopLoss)⌋
        riskAmount := s.accountSize * (s.riskPercentage / 100)
        totalCost :=
          (⌊s.accountSize * (s.riskPercentage / 100) / (i.entryTarget - i.stopLoss)⌋ : ℚ)
            * i.entryTarget + 6.95
        potentialProfit :=
          (⌊s.accountSize * (s.riskPercentage / 100) / (i.entryTarget - i.stopLoss)⌋ : ℚ)
            * (i.takeProfit - i.entryTarget) - 6.95
        rr := (i.takeProfit - i.entryTarget) / (i.entryTarget - i.stopLoss) } := by
  simp only [calcRisk]
  rw [if_neg (not_le.mpr (by linarith))]

theorem sizeSpec_pos_eq (entryTarget stopLoss takeProfit accountSize riskPercentage flatFee : ℚ)
    (h : stopLoss < entryTarget) :
    sizeSpec entryTarget stopLoss takeProfit accountSize riskPercentage flatFee = some
      { shares := ⌊accountSize * (riskPercentage / 100) / (entryTarget - stopLoss)⌋
        riskAmount := accountSize * (riskPercentage / 100)
        totalCost :=
          (⌊accountSize * (riskPercentage / 100) / (entryTarget - stopLoss)⌋ : ℚ)
            * entryTarget + flatFee
        potentialProfit :=
          (⌊accountSize * (riskPercentage / 100) / (entryTarget - stopLoss)⌋ : ℚ)
            * (takeProfit - entryTarget) - flatFee
        rr := (takeProfit - entryTarget) / (entryTarget - stopLoss) } := by
  simp only [sizeSpec]
  rw [if_neg (not_le.mpr (by linarith))]

theorem calcRisk_ref_eval :
    calcRisk ⟨25000, 2⟩ ⟨"RY.TO", 145.5, 140, 158⟩
      = some { shares := 90, riskAmount := 500, totalCost := 13101.95,
               potentialProfit := 1118.05, rr := (158 - 145.5) / 5.5 } := by
  have hfloor : (⌊((25000 : ℚ) * (2 / 100)) / (145.5 - 140)⌋ : ℤ) = 90 := by
    rw [Int.floor_eq_iff]
    norm_num
  simp only [calcRisk]
  rw [if_neg (by norm_num)]
  simp only [hfloor, Option.some.injEq, RiskCalc.mk.injEq]
  norm_num

theorem sizeSpec_fee0_eval :
    sizeSpec 145.5 140 158 25000 2 0
      = some { shares := 90, riskAmount := 500, totalCost := 13095,
               potentialProfit := 1125, rr := (158 - 145.5) / 5.5 } := by
  have hfloor : (⌊((25000 : ℚ) * (2 / 100)) / (145.5 - 140)⌋ : ℤ) = 90 := by
    rw [Int.floor_eq_iff]
    norm_num
  simp only [sizeSpec]
  rw [if_neg (by norm_num)]
  simp only [hfloor, Option.some.injEq, RiskCalc.mk.injEq]
  norm_num

/-! The claims about the sizer. -/

/-- Claim C1: for every sizing input with entryTarget ≤ stopLoss the sizer
yields no result (the explicit invalid-sizing outcome), for all values of the
account size, risk percentage and take profit. -/
theorem C1_sizer_degenerate (s : Settings) (i : WatchlistItem)
    (h : i.entryTarget ≤ i.stopLoss) : calcRisk s i = none := by
  simp only [calcRisk]
  rw [if_pos (by linarith)]

/-- Witness for C1 at the spec's degenerate example entryTarget = stopLoss = 100. -/
theorem C1_witness : calcRisk ⟨25000, 2⟩ ⟨"X", 100, 100, 120⟩ = none :=
  C1_sizer_degenerate ⟨25000, 2⟩ ⟨"X", 100, 100, 120⟩ (le_refl 100)

/-- Claim C3: the sizer at entryTarget=145.50, stopLoss=140.00,
takeProfit=158.00, accountSize=25000, riskPercentage=2, flatFee=6.95 returns
riskAmount=500.00, shares=90, totalCost=13101.95, potentialProfit=1118.05 and
riskRewardRatio=(158.00-145.50)/5.50. -/
theorem C3_sizer_concrete :
    calcRisk ⟨25000, 2⟩ ⟨"RY.TO", 145.5, 140, 158⟩
      = some { shares := 90, riskAmount := 500, totalCost := 13101.95,
               potentialProfit := 1118.05, rr := (158 - 145.5) / 5.5 } :=
  calcRisk_ref_eval

/-- Claim C6 counterexample: the settings carry no flat-fee field and the code
hardcodes 6.95, so with flat fee 0 supplied the claimed totalCost formula
shares * entryTarget + flatFee fails: the code returns totalCost 13101.95 where
the claim demands 13095. -/
theorem C6_counterexample :
    calcRisk ⟨25000, 2⟩ ⟨"RY.TO", 145.5, 140, 158⟩ ≠ sizeSpec 145.5 140 158 25000 2 0
    ∧ Option.map RiskCalc.totalCost (calcRisk ⟨25000, 2⟩ ⟨"RY.TO", 145.5, 140, 158⟩)
        = some 13101.95
    ∧ Option.map RiskCalc.totalCost (sizeSpec 145.5 140 158 25000 2 0) = some 13095 := by
  refine ⟨?_, ?_, ?_⟩
  · intro heq
    rw [calcRisk_ref_eval, sizeSpec_fee0_eval] at heq
    simp only [Option.some.injEq, RiskCalc.mk.injEq] at heq
    have := heq.2.2.1
    norm_num at this
  · rw [calcRisk_ref_eval]
    rfl
  · rw [sizeSpec_fee0_eval]
    rfl

/-- Claim C6 (amended): for every valid sizing input (entryTarget > stopLoss)
the sizer uses the fixed flat fee 6.95 (the risk settings carry no flat-fee
field): totalCost = shares * entryTarget + 6.95, potentialProfit =
shares * (takeProfit - entryTarget) - 6.95, the result agrees with the spec
sizer at flat fee 6.95, and the reward arithmetic is unclamped: the ratio is
negative whenever takeProfit < entryTarget. -/
theorem C6_sizer_fee_amended (s : Settings) (i : WatchlistItem)
    (h : i.stopLoss < i.entryTarget) :
    ∃ r, calcRisk s i = some r
      ∧ r.totalCost = (r.shares : ℚ) * i.entryTarget + 6.95
      ∧ r.potentialProfit = (r.shares : ℚ) * (i.takeProfit - i.entryTarget) - 6.95
      ∧ calcRisk s i
          = sizeSpec i.entryTarget i.stopLoss i.takeProfit s.accountSize s.riskPercentage 6.95
      ∧ (i.takeProfit < i.entryTarget → r.rr < 0) := by
  rw [calcRisk_pos_eq s i h, sizeSpec_pos_eq _ _ _ _ _ _ h]
  refine ⟨_, rfl, rfl, rfl, rfl, ?_⟩
  intro htp
  exact div_neg_of_neg_of_pos (by linarith) (by linarith)

/-- Witness for C6 (amended) at the reference input. -/
theorem C6_witness :
    ∃ r, calcRisk ⟨25000, 2⟩ ⟨"RY.TO", 145.5, 140, 158⟩ = some r
      ∧ r.totalCost = (r.shares : ℚ) * (145.5 : ℚ) + 6.95
      ∧ r.potentialProfit = (r.shares : ℚ) * ((158 : ℚ) - 145.5) - 6.95
      ∧ calcRisk ⟨25000, 2⟩ ⟨"RY.TO", 145.5, 140, 158⟩ = sizeSpec 145.5 140 158 25000 2 6.95
      ∧ ((158 : ℚ) < 145.5 → r.rr < 0) :=
  C6_sizer_fee_amended ⟨25000, 2⟩ ⟨"RY.TO", 145.5, 140, 158⟩ (by norm_num)

/-- Claim C7: with entry, stop, take profit and risk percentage fixed
(risk percentage nonnegative, as the settings data model requires) and
entryTarget > stopLoss, a larger or equal account size never decreases the
computed share count. -/
theorem C7_sizer_monotone (s1 s2 : Settings) (i : WatchlistItem)
    (hstop : i.stopLoss < i.entryTarget)
    (hpct : s1.riskPercentage = s2.riskPercentage)
    (hp0 : 0 ≤ s1.riskPercentage)
    (hacct : s1.accountSize ≤ s2.accountSize) :
    ∃ r1 r2, calcRisk s1 i = some r1 ∧ calcRisk s2 i = some r2 ∧ r1.shares ≤ r2.shares := by
  rw [calcRisk_pos_eq s1 i hstop, calcRisk_pos_eq s2 i hstop]
  refine ⟨_, _, rfl, rfl, ?_⟩
  dsimp only
  apply Int.floor_le_floor
  have hps : (0 : ℚ) < i.entryTarget - i.stopLoss := by linarith
  have h1 : s1.accountSize * (s1.riskPercentage / 100)
      ≤ s2.accountSize * (s2.riskPercentage / 100) := by
    rw [hpct]
    have hp2 : 0 ≤ s2.riskPercentage := hpct ▸ hp0
    exact mul_le_mul_of_nonneg_right hacct (div_nonneg hp2 (by norm_num))
  exact (div_le_div_iff_of_pos_right hps).mpr h1

/-- Witness for C7 with account sizes 10000 and 25000. -/
theorem C7_witness :
    ∃ r1 r2, calcRisk ⟨10000, 2⟩ ⟨"RY.TO", 145.5, 140, 158⟩ = some r1
      ∧ calcRisk ⟨25000, 2⟩ ⟨"RY.TO", 145.5, 140, 158⟩ = some r2
      ∧ r1.shares ≤ r2.shares :=
  C7_sizer_monotone ⟨10000, 2⟩ ⟨25000, 2⟩ ⟨"RY.TO", 145.5, 140, 158⟩
    (by norm_num) rfl (by norm_num) (by norm_num)

/-- Claim C10: for every valid sizing input with nonnegative account size and
risk percentage, the computed share count is nonnegative and the money at risk
shares * (entryTarget - stopLoss) never exceeds the risk budget
accountSize * (riskPercentage / 100). -/
theorem C10_risk_budget (s : Settings) (i : WatchlistItem)
    (hstop : i.stopLoss < i.entryTarget) (hacct : 0 ≤ s.accountSize)
    (hpct : 0 ≤ s.riskPercentage) :
    ∃ r, calcRisk s i = some r ∧ 0 ≤ r.shares
      ∧ (r.shares : ℚ) * (i.entryTarget - i.stopLoss)
          ≤ s.accountSize * (s.riskPercentage / 100) := by
  rw [calcRisk_pos_eq s i hstop]
  refine ⟨_, rfl, ?_, ?_⟩
  · dsimp only
    apply Int.le_floor.mpr
    push_cast
    exact div_nonneg (mul_nonneg hacct (div_nonneg hpct (by norm_num))) (by linarith)
  · dsimp only
    have hps : (0 : ℚ) < i.entryTarget - i.stopLoss := by linarith
    have hfl :=
      Int.floor_le (s.accountSize * (s.riskPercentage / 100) / (i.entryTarget - i.stopLoss))
    have h2 := mul_le_mul_of_nonneg_right hfl (le_of_lt hps)
    rwa [div_mul_cancel₀ _ (ne_of_gt hps)] at h2

/-- Witness for C10 at the reference input. -/
theorem C10_witness :
    ∃ r, calcRisk ⟨25000, 2⟩ ⟨"RY.TO", 145.5, 140, 158⟩ = some r ∧ 0 ≤ r.shares
      ∧ (r.shares : ℚ) * ((145.5 : ℚ) - 140) ≤ (25000 : ℚ) * ((2 : ℚ) / 100) :=
  C10_risk_budget ⟨25000, 2⟩ ⟨"RY.TO", 145.5, 140, 158⟩ (by norm_num) (by norm_num) (by norm_num)

/-- Claim C4: the per-position price selection takes the live day close when
present and nonzero, else the live last-trade price when present and nonzero,
else the stored price; a missing quote never fails. -/
theorem C4_price_fallback (dc lt : Option ℚ) (stored : ℚ) :
    (∀ v, dc = some v → v ≠ 0 → selectPrice dc lt stored = v)
    ∧ ((dc = none ∨ dc = some 0) →
        ∀ w, lt = some w → w ≠ 0 → selectPrice dc lt stored = w)
    ∧ ((dc = none ∨ dc = some 0) → (lt = none ∨ lt = some 0) →
        selectPrice dc lt stored = stored) := by
  refine ⟨?_, ?_, ?_⟩
  · rintro v rfl hv
    simp [selectPrice, jsOrQ, hv]
  · rintro (rfl | rfl) w rfl hw
    · simp [selectPrice, jsOrQ, hw]
    · simp [selectPrice, jsOrQ, hw]
  · rintro (rfl | rfl) (rfl | rfl)
    · simp [selectPrice, jsOrQ]
    · simp [selectPrice, jsOrQ]
    · simp [selectPrice, jsOrQ]
    · simp [selectPrice, jsOrQ]

/-- Witness for C4: a zero day close and live last trade 7 select 7; fully
missing quotes select the stored price. -/
theorem C4_witness : selectPrice (some 0) (some 7) 3 = 7 ∧ selectPrice none none 5 = 5 :=
  ⟨(C4_price_fallback (some 0) (some 7) 3).2.1 (Or.inr rfl) 7 rfl (by norm_num),
   (C4_price_fallback none none 5).2.2 (Or.inl rfl) (Or.inl rfl)⟩

/-- Evaluation form of `round2` on a nonnegative argument. -/
theorem round2_eq_of_not_neg {x : ℚ} {n : ℤ} (hx : ¬x < 0)
    (h : (⌊x * 100 + 1 / 2⌋ : ℤ) = n) : round2 x = (n : ℚ) / 100 := by
  rw [round2, if_neg hx, h]

/-- Claim C2 counterexample: a zero-share position with positive average cost
has cost basis 0, yet the P and L ranking computes percentage return 100, not
the 0 the claim demands at zero cost basis; and the ranking's pnl is rounded
to two decimals, so it is not exactly market value minus cost basis either. -/
theorem C2_counterexample :
    (⟨"T", 0, 1, 2, none⟩ : PortfolioItem).shares
        * (⟨"T", 0, 1, 2, none⟩ : PortfolioItem).avgCost = 0
    ∧ (holdingsPnlEntry ⟨"T", 0, 1, 2, none⟩).returnPct = 100
    ∧ (100 : ℚ) ≠ 0
    ∧ (holdingsPnlEntry ⟨"U", 0.1, 0, 0.15, none⟩).pnl
        ≠ (0.1 : ℚ) * 0.15 - (0.1 : ℚ) * 0 := by
  refine ⟨by norm_num, ?_, by norm_num, ?_⟩
  · have h1 : (⌊(100 : ℚ) * 100 + 1 / 2⌋ : ℤ) = 10000 := by
      rw [Int.floor_eq_iff]
      norm_num
    have h2 : (holdingsPnlEntry ⟨"T", 0, 1, 2, none⟩).returnPct = round2 100 := by
      simp only [holdingsPnlEntry]
      norm_num
    rw [h2, round2_eq_of_not_neg (by norm_num) h1]
    norm_num
  · have ha : (holdingsPnlEntry ⟨"U", 0.1, 0, 0.15, none⟩).pnl = round2 (3 / 200) := by
      simp only [holdingsPnlEntry]
      norm_num
    have hb : (⌊(3 / 200 : ℚ) * 100 + 1 / 2⌋ : ℤ) = 2 := by
      rw [Int.floor_eq_iff]
      norm_num
    rw [ha, round2_eq_of_not_neg (by norm_num) hb]
    norm_num

/-- Claim C2 (amended): for every position with shares ≥ 0, avgCost ≥ 0 and
price ≥ 0, the card's unrealized P and L equals market value minus cost basis
exactly and its percentage return is pnl / costBasis * 100 when the cost basis
is positive and 0 when it is 0. The P and L ranking instead rounds its values
to two decimals and guards its return by avgCost > 0: its return is the
per-share return (price - avgCost) / avgCost * 100, which agrees with
pnl / costBasis * 100 whenever shares > 0 but not for a zero-share position. -/
theorem C2_pnl_return_amended (item : PortfolioItem) (price : ℚ)
    (h0 : 0 ≤ item.shares) (h1 : 0 ≤ item.avgCost) (h2 : 0 ≤ price) :
    (portfolioCard item price).pnl = item.shares * price - item.shares * item.avgCost
    ∧ (0 < item.shares * item.avgCost →
        (portfolioCard item price).ret
          = (portfolioCard item price).pnl / (item.shares * item.avgCost) * 100)
    ∧ (item.shares * item.avgCost = 0 → (portfolioCard item price).ret = 0)
    ∧ (holdingsPnlEntry item).pnl
        = round2 (item.shares * item.currentPrice - item.shares * item.avgCost)
    ∧ (0 < item.avgCost → (holdingsPnlEntry item).returnPct
        = round2 ((item.currentPrice - item.avgCost) / item.avgCost * 100))
    ∧ (0 < item.shares → 0 < item.avgCost → (holdingsPnlEntry item).returnPct
        = round2 ((item.shares * item.currentPrice - item.shares * item.avgCost)
            / (item.shares * item.avgCost) * 100))
    ∧ (item.avgCost = 0 → (holdingsPnlEntry item).returnPct = 0) := by
  refine ⟨rfl, ?_, ?_, ?_, ?_, ?_, ?_⟩
  · intro hc
    simp only [portfolioCard]
    rw [if_pos hc]
  · intro hc
    simp only [portfolioCard]
    rw [if_neg (by rw [hc]; exact lt_irrefl 0)]
  · simp only [holdingsPnlEntry]
    exact congrArg round2 (by ring)
  · intro ha
    simp only [holdingsPnlEntry]
    rw [if_pos ha]
  · intro hs ha
    simp only [holdingsPnlEntry]
    rw [if_pos ha]
    refine congrArg round2 ?_
    rw [show item.shares * item.currentPrice - item.shares * item.avgCost
        = item.shares * (item.currentPrice - item.avgCost) by ring]
    rw [mul_div_mul_left _ _ (ne_of_gt hs)]
  · intro ha
    simp only [holdingsPnlEntry]
    rw [if_neg (by rw [ha]; exact lt_irrefl 0), round2_zero]

/-- Witness for C2 (amended) at the spec's P and L scenario position
(50 shares, avgCost 142.30, price 147.85). -/
theorem C2_witness :
    (portfolioCard ⟨"P", 50, 142.3, 147.85, none⟩ 147.85).pnl
        = (50 : ℚ) * 147.85 - (50 : ℚ) * 142.3
    ∧ ((0 : ℚ) < (50 : ℚ) * 142.3 →
        (portfolioCard ⟨"P", 50, 142.3, 147.85, none⟩ 147.85).ret
          = (portfolioCard ⟨"P", 50, 142.3, 147.85, none⟩ 147.85).pnl
              / ((50 : ℚ) * 142.3) * 100)
    ∧ ((50 : ℚ) * 142.3 = 0 → (portfolioCard ⟨"P", 50, 142.3, 147.85, none⟩ 147.85).ret = 0)
    ∧ (holdingsPnlEntry ⟨"P", 50, 142.3, 147.85, none⟩).pnl
        = round2 ((50 : ℚ) * 147.85 - (50 : ℚ) * 142.3)
    ∧ ((0 : ℚ) < 142.3 → (holdingsPnlEntry ⟨"P", 50, 142.3, 147.85, none⟩).returnPct
        = round2 (((147.85 : ℚ) - 142.3) / 142.3 * 100))
    ∧ ((0 : ℚ) < 50 → (0 : ℚ) < 142.3 →
        (holdingsPnlEntry ⟨"P", 50, 142.3, 147.85, none⟩).returnPct
          = round2 (((50 : ℚ) * 147.85 - (50 : ℚ) * 142.3) / ((50 : ℚ) * 142.3) * 100))
    ∧ ((142.3 : ℚ) = 0 → (holdingsPnlEntry ⟨"P", 50, 142.3, 147.85, none⟩).returnPct = 0) :=
  C2_pnl_return_amended ⟨"P", 50, 142.3, 147.85, none⟩ 147.85
    (by norm_num) (by norm_num) (by norm_num)

/-! Helper lemmas for the trade rollup claims. -/

theorem tradesByDate_bucket_eq {ts : List Trade} {e : String × (ℚ × ℚ × ℚ)}
    (he : e ∈ tradesByDate ts) :
    e.2 = keyTotal Trade.date tradeContrib e.1 ts :=
  (mem_groupFold_eq he).trans
    (keyTotal_perm Trade.date tradeContrib e.1 (List.perm_insertionSort dateLE ts))

theorem sortTrades_dates_sorted (ts : List Trade) :
    ((sortTrades ts).map Trade.date).Sorted (· ≤ ·) :=
  List.Pairwise.map Trade.date (fun _ _ hab => hab) (List.sorted_insertionSort dateLE ts)

theorem feesAux_chain :
    ∀ (bs : List (String × (ℚ × ℚ × ℚ))) (cum : ℚ),
      (∀ b ∈ bs, 0 ≤ b.2.2.2) →
      List.Chain' (· ≤ ·) ((feesAux cum bs).map Prod.snd)
  | [], _, _ => by simp [feesAux]
  | [_], _, _ => by simp [feesAux]
  | b :: b2 :: bs, cum, h => by
    have hrec := feesAux_chain (b2 :: bs) (cum + b.2.2.2)
      (fun x hx => h x (List.mem_cons_of_mem b hx))
    simp only [feesAux, List.map_cons] at hrec ⊢
    rw [List.chain'_cons]
    refine ⟨?_, hrec⟩
    have hb2 : 0 ≤ b2.2.2.2 := h b2 (by simp)
    exact round2_mono (by linarith)

/-- Claim C5: the by-date rollup has exactly one bucket per distinct date
string (grouped by exact string equality), each bucket sums shares*price over
its BUY trades into buys, over its SELL trades into sells, and sums its fees,
buckets come in ascending lexicographic date order, and the spec's two-BUY
example produces the single bucket (\x7bdate "2026-01-01", buys 60, sells 0\x7d). -/
theorem C5_by_date_rollup (ts : List Trade)
    (htypes : ∀ t ∈ ts, t.type = "BUY" ∨ t.type = "SELL") :
    ((tradesByDate ts).map Prod.fst).Nodup
    ∧ (∀ d, d ∈ (tradesByDate ts).map Prod.fst ↔ d ∈ ts.map Trade.date)
    ∧ (∀ e ∈ tradesByDate ts,
        e.2.1 = ((ts.filter (fun t => decide (t.date = e.1 ∧ t.type = "BUY"))).map
            (fun t => t.shares * t.price)).sum
        ∧ e.2.2.1 = ((ts.filter (fun t => decide (t.date = e.1 ∧ t.type = "SELL"))).map
            (fun t => t.shares * t.price)).sum
        ∧ e.2.2.2 = ((ts.filter (fun t => decide (t.date = e.1))).map Trade.fees).sum)
    ∧ ((tradesByDate ts).map Prod.fst).Sorted (· < ·)
    ∧ tradesByDate [⟨"BUY", "A", 10, 5, 0, "2026-01-01"⟩, ⟨"BUY", "A", 2, 5, 0, "2026-01-01"⟩]
        = [("2026-01-01", (60, 0, 0))] := by
  have hperm : (sortTrades ts).Perm ts := List.perm_insertionSort dateLE ts
  refine ⟨groupFold_keys_nodup Trade.date tradeContrib (sortTrades ts), ?_, ?_, ?_, ?_⟩
  · intro d
    rw [tradesByDate, groupFold_mem_keys Trade.date tradeContrib d (sortTrades ts)]
    exact (hperm.map Trade.date).mem_iff
  · intro e he
    have h3 := tradesByDate_bucket_eq he
    refine ⟨?_, ?_, ?_⟩
    · have hfst : e.2.1 = ((ts.filter (fun t => decide (t.date = e.1))).map
          (fun t => if t.type = "BUY" then t.shares * t.price else 0)).sum := by
        rw [h3, keyTotal, sum_fst3, List.map_map]
        rfl
      rw [hfst, sum_map_ite_filter (fun t : Trade => t.type = "BUY")
        (fun t : Trade => t.shares * t.price), filter_decide_and]
    · have hite : ((ts.filter (fun t => decide (t.date = e.1))).map
            (fun t => if t.type = "BUY" then (0 : ℚ) else t.shares * t.price))
          = ((ts.filter (fun t => decide (t.date = e.1))).map
            (fun t => if ¬t.type = "BUY" then t.shares * t.price else 0)) := by
        apply List.map_congr_left
        intro t _
        by_cases h : t.type = "BUY" <;> simp [h]
      have hsnd : e.2.2.1 = ((ts.filter (fun t => decide (t.date = e.1))).map
          (fun t => if t.type = "BUY" then (0 : ℚ) else t.shares * t.price)).sum := by
        rw [h3, keyTotal, sum_snd3, List.map_map]
        rfl
      rw [hsnd, hite,
        sum_map_ite_filter (fun t : Trade => ¬t.type = "BUY")
          (fun t : Trade => t.shares * t.price),
        filter_decide_and]
      have hcongr : ts.filter (fun t => decide (t.date = e.1 ∧ ¬t.type = "BUY"))
          = ts.filter (fun t => decide (t.date = e.1 ∧ t.type = "SELL")) := by
        apply List.filter_congr
        intro t ht
        rcases htypes t ht with hb | hs2
        · simp [hb]
        · have hne : ¬("SELL" : String) = "BUY" := by decide
          simp [hs2, hne]
      rw [hcongr]
    · rw [h3, keyTotal, sum_thd3, List.map_map]
      rfl
  · exact groupFold_keys_sorted Trade.date tradeContrib (sortTrades ts)
      (sortTrades_dates_sorted ts)
  · norm_num [tradesByDate, sortTrades, groupFold, upsert, tradeContrib, List.insertionSort,
      List.orderedInsert, dateLE]

/-- Witness for C5 at the spec's two-BUY example. -/
theorem C5_witness :
    tradesByDate [⟨"BUY", "A", 10, 5, 0, "2026-01-01"⟩, ⟨"BUY", "A", 2, 5, 0, "2026-01-01"⟩]
      = [("2026-01-01", (60, 0, 0))] :=
  (C5_by_date_rollup
    [⟨"BUY", "A", 10, 5, 0, "2026-01-01"⟩, ⟨"BUY", "A", 2, 5, 0, "2026-01-01"⟩]
    (by decide)).2.2.2.2

/-- Claim C8: when all fees are nonnegative, the cumulative fee series over
the date-ordered rollup is monotonically non-decreasing. -/
theorem C8_cumulative_fees (ts : List Trade) (h : ∀ t ∈ ts, 0 ≤ t.fees) :
    List.Chain' (· ≤ ·) ((feesOverTime ts).map Prod.snd) := by
  rw [feesOverTime]
  apply feesAux_chain
  intro b hb
  have h3 := tradesByDate_bucket_eq hb
  have hfees : b.2.2.2 = ((ts.filter (fun t => decide (t.date = b.1))).map Trade.fees).sum := by
    rw [h3, keyTotal, sum_thd3, List.map_map]
    rfl
  rw [hfees]
  apply List.sum_nonneg
  intro x hx
  rcases List.mem_map.mp hx with ⟨t, ht, rfl⟩
  exact h t (List.mem_of_mem_filter ht)

/-- Witness for C8 on a two-trade journal with fees 2 and 3. -/
theorem C8_witness :
    List.Chain' (· ≤ ·)
      ((feesOverTime [⟨"BUY", "A", 10, 5, 2, "2026-01-01"⟩,
          ⟨"SELL", "A", 1, 5, 3, "2026-01-02"⟩]).map Prod.snd) :=
  C8_cumulative_fees
    [⟨"BUY", "A", 10, 5, 2, "2026-01-01"⟩, ⟨"SELL", "A", 1, 5, 3, "2026-01-02"⟩]
    (by decide)

/-- Claim C9: the by-sector rollup groups each position under its sector,
sending an unset or empty sector to the literal "Other", has one entry per
distinct sector, sums shares*currentPrice per group (rounded for display),
and orders the groups descending by total. -/
theorem C9_sector_rollup (ps : List PortfolioItem) :
    ((sectorChartData ps).map Prod.fst).Nodup
    ∧ (∀ s, s ∈ (sectorChartData ps).map Prod.fst ↔ s ∈ ps.map sectorKey)
    ∧ (∀ p ∈ ps, (p.sector = none ∨ p.sector = some "") → sectorKey p = "Other")
    ∧ (∀ e ∈ sectorChartData ps,
        e.2 = round2 (((ps.filter (fun p => decide (sectorKey p = e.1))).map
            (fun p => p.shares * p.currentPrice)).sum))
    ∧ (sectorChartData ps).Sorted (fun a b => b.2 ≤ a.2) := by
  have hperm : (List.insertionSort valGE (sectorMap ps)).Perm (sectorMap ps) :=
    List.perm_insertionSort valGE (sectorMap ps)
  have hkeys : (sectorChartData ps).map Prod.fst
      = (List.insertionSort valGE (sectorMap ps)).map Prod.fst := by
    rw [sectorChartData, List.map_map]
    rfl
  refine ⟨?_, ?_, ?_, ?_, ?_⟩
  · rw [hkeys]
    exact ((hperm.map Prod.fst).nodup_iff).mpr
      (groupFold_keys_nodup sectorKey (fun p => p.shares * p.currentPrice) ps)
  · intro s
    rw [hkeys, (hperm.map Prod.fst).mem_iff]
    exact groupFold_mem_keys sectorKey (fun p => p.shares * p.currentPrice) s ps
  · intro p _ hcase
    rcases hcase with h | h <;> simp [sectorKey, h]
  · intro e he
    rw [sectorChartData] at he
    obtain ⟨e0, he0, rfl⟩ := List.mem_map.mp he
    have he1 : e0 ∈ sectorMap ps := hperm.mem_iff.mp he0
    have h3 := mem_groupFold_eq he1
    simp only [keyTotal] at h3
    exact congrArg round2 h3
  · rw [sectorChartData]
    exact List.Pairwise.map _ (fun a b hab => round2_mono hab)
      (List.sorted_insertionSort valGE (sectorMap ps))

/-- Witness for C9: a null sector and an empty sector both land in "Other". -/
theorem C9_witness :
    sectorKey ⟨"A", 1, 1, 3, none⟩ = "Other" ∧ sectorKey ⟨"B", 2, 1, 1, some ""⟩ = "Other" :=
  ⟨(C9_sector_rollup [⟨"A", 1, 1, 3, none⟩]).2.2.1 ⟨"A", 1, 1, 3, none⟩ (by simp) (Or.inl rfl),
   (C9_sector_rollup [⟨"B", 2, 1, 1, some ""⟩]).2.2.1 ⟨"B", 2, 1, 1, some ""⟩ (by simp)
     (Or.inr rfl)⟩

end Trading
